import Mathlib

/-!
Verification of the candidate-resolution / identifier-matching engine of the
repository (src/Events/events.py and src/all_channels/main.py).

Strings are modelled as `List Char` (`PS`); every Python string operation used
by the source (strip/lower/split/replace, the concrete regexes, `in`
containment) is given an executable Lean counterpart with Python semantics on
the ASCII data the program handles.  Effectful parts are modelled by explicit
parameters: the completion order of the concurrent validator as a list of
URLs, network probes as an `Nat → Attempt` oracle, Python exceptions as
`Except`.
-/

set_option maxRecDepth 10000

namespace CloneSpec

deriving instance DecidableEq for Except

/-- Python strings, modelled as lists of characters. -/
abbrev PS := List Char

/-- Convert a Lean string literal into the `PS` model. -/
def ps (s : String) : PS := s.toList

/-- Python whitespace (`\s` over the ASCII range): space, tab, LF, VT, FF, CR. -/
def pyIsSpace (c : Char) : Bool :=
  c = ' ' || c = '\t' || c = '\n' || c = Char.ofNat 11 || c = Char.ofNat 12 || c = '\r'

/-- Python `str.lower()` (ASCII range, which covers the program's data). -/
def pyLower (cs : PS) : PS := cs.map Char.toLower

/-- Python `str.strip()`: drop leading and trailing whitespace. -/
def pyStrip (cs : PS) : PS :=
  ((cs.dropWhile pyIsSpace).reverse.dropWhile pyIsSpace).reverse

/-- Python `needle in haystack` substring containment (`"" in s` is `True`). -/
def pyInfix : PS → PS → Bool
  | n, [] => n.isEmpty
  | n, c :: t => n.isPrefixOf (c :: t) || pyInfix n t

/-- `re.sub(r'\s+', '', s)`: removing every whitespace run is removing every
whitespace character. -/
def removeWs (cs : PS) : PS := cs.filter (fun c => !pyIsSpace c)

/-- Fueled worker for `splitWs`. -/
def splitWsGo : Nat → PS → List PS
  | 0, _ => []
  | _, [] => []
  | fuel+1, c :: rest =>
    if pyIsSpace c then splitWsGo fuel rest
    else (c :: rest.takeWhile (fun x => !pyIsSpace x))
      :: splitWsGo fuel (rest.dropWhile (fun x => !pyIsSpace x))

/-- Python `str.split()` with no argument: split on whitespace runs, no empty
pieces. -/
def splitWs (cs : PS) : List PS := splitWsGo (cs.length + 1) cs

/-- Fueled worker for `collapseWs`. -/
def collapseWsGo : Nat → PS → PS
  | 0, _ => []
  | _, [] => []
  | fuel+1, c :: rest =>
    if pyIsSpace c then ' ' :: collapseWsGo fuel (rest.dropWhile pyIsSpace)
    else c :: collapseWsGo fuel rest

/-- `re.sub(r'\s+', ' ', s)`: each whitespace run becomes a single space. -/
def collapseWs (cs : PS) : PS := collapseWsGo (cs.length + 1) cs

/-- Fueled worker for `pyReplace`. -/
def pyReplaceGo : Nat → PS → PS → PS → PS
  | 0, _, _, _ => []
  | _, _, _, [] => []
  | fuel+1, pat, rep, c :: rest =>
    if pat ≠ [] && pat.isPrefixOf (c :: rest) then
      rep ++ pyReplaceGo fuel pat rep ((c :: rest).drop pat.length)
    else c :: pyReplaceGo fuel pat rep rest

/-- Python `s.replace(pat, rep)`: replace all non-overlapping occurrences,
left to right (the source only calls it with non-empty `pat`). -/
def pyReplace (s pat rep : PS) : PS := pyReplaceGo (s.length + 1) pat rep s

/-- `\w` word characters of the regexes involved (ASCII range). -/
def isWordChar (c : Char) : Bool := c.isAlphanum || c = '_'

/-- The `\b` boundary check after a removed token: ok at end of string or
before a non-word character. -/
def boundaryAfterOk (cs : PS) : Bool :=
  match cs with
  | [] => true
  | d :: _ => !isWordChar d

/-- Fueled worker for `reSubTokens`.  `prev` is the character before the scan
position (`none` at the start of the string). -/
def reSubTokensGo (toks : List PS) : Nat → Option Char → PS → PS
  | 0, _, _ => []
  | _, _, [] => []
  | fuel+1, prev, c :: rest =>
    let boundaryBefore : Bool :=
      match prev with
      | none => true
      | some p => !isWordChar p
    match toks.find? (fun t =>
        t ≠ [] && boundaryBefore && t.isPrefixOf (c :: rest)
          && boundaryAfterOk ((c :: rest).drop t.length)) with
    | some t => reSubTokensGo toks fuel (some (t.getLastD ' ')) ((c :: rest).drop t.length)
    | none => c :: reSubTokensGo toks fuel (some c) rest

/-- `re.sub(r'\b(t1|t2|...)\b', '', s)` for tokens that start and end with a
word character (all tokens the source uses do): scan left to right, at each
position try the alternatives in order, delete `\b`-bounded occurrences. -/
def reSubTokens (toks : List PS) (s : PS) : PS :=
  reSubTokensGo toks (s.length + 1) none s

/-- Python `str.title()` (ASCII range): upper-case a cased character that
follows a non-cased one, lower-case the rest. -/
def pyTitleGo : Bool → PS → PS
  | _, [] => []
  | prevAlpha, c :: rest =>
    (if c.isAlpha then (if prevAlpha then c.toLower else c.toUpper) else c)
      :: pyTitleGo c.isAlpha rest

/-- Python `str.title()`. -/
def pyTitle (cs : PS) : PS := pyTitleGo false cs

/-- `' '.join(pieces)`. -/
def joinSpace (pieces : List PS) : PS := List.intercalate [' '] pieces

/-- The `COUNTRY_CODES` table of `events.py`, in source (dict-insertion)
order. -/
def COUNTRY_CODES : List (PS × PS) := [
  (ps "usa", ps "us"), (ps "united states", ps "us"), (ps "america", ps "us"),
  (ps "uk", ps "uk"), (ps "united kingdom", ps "uk"), (ps "britain", ps "uk"),
  (ps "england", ps "uk"),
  (ps "canada", ps "ca"), (ps "can", ps "ca"),
  (ps "australia", ps "au"), (ps "aus", ps "au"),
  (ps "new zealand", ps "nz"), (ps "newzealand", ps "nz"),
  (ps "germany", ps "de"), (ps "deutschland", ps "de"), (ps "german", ps "de"),
  (ps "france", ps "fr"), (ps "french", ps "fr"),
  (ps "spain", ps "es"), (ps "spanish", ps "es"), (ps "españa", ps "es"),
  (ps "italy", ps "it"), (ps "italian", ps "it"), (ps "italia", ps "it"),
  (ps "croatia", ps "hr"), (ps "hrvatska", ps "hr"),
  (ps "serbia", ps "rs"), (ps "srbija", ps "rs"),
  (ps "netherlands", ps "nl"), (ps "holland", ps "nl"), (ps "dutch", ps "nl"),
  (ps "portugal", ps "pt"), (ps "portuguese", ps "pt"),
  (ps "poland", ps "pl"), (ps "polish", ps "pl"), (ps "polska", ps "pl"),
  (ps "greece", ps "gr"), (ps "greek", ps "gr"),
  (ps "bulgaria", ps "bg"), (ps "bulgarian", ps "bg"),
  (ps "israel", ps "il"), (ps "hebrew", ps "il"),
  (ps "malaysia", ps "my"), (ps "malay", ps "my")]

/-- `re.search(r'^(.+?)\s*\(([^)]+)\)$', name)` of `extract_channel_info`.
Returns `(group1, group2)` on a match.  The engine takes the shortest
non-empty `group1` (lazy `.+?`); for a given `group1` end the greedy `\s*`
forces the `(` to sit at the end of the whitespace run, and `[^)]+` together
with the `$` anchor force `group2` to be the `)`-free non-empty content ending
at the final `)`. -/
def parenExtract (cs : PS) : Option (PS × PS) :=
  if cs.getLast? = some ')' then
    let j := cs.length - 1
    let body := cs.take j
    (List.range' 1 j).findSome? fun l =>
      let afterG1 := body.drop l
      let i := l + (afterG1.takeWhile pyIsSpace).length
      match body.drop i with
      | '(' :: content =>
        if content ≠ [] ∧ ¬ content.contains ')' then some (body.take l, content)
        else none
      | _ => none
  else none

/-- The suffix scan of `extract_channel_info`:
`for i in range(len(words)-1, 0, -1)` — try the country table on the last
word, then the last two words, and so on. -/
def wordsCountry (words : List PS) : Option (PS × PS) :=
  ((List.range (words.length - 1)).reverse.map (· + 1)).findSome? fun i =>
    (COUNTRY_CODES.lookup (pyLower (joinSpace (words.drop i)))).map fun code =>
      (pyStrip (joinSpace (words.take i)), code)

/-- `extract_channel_info` of `events.py`: split a display name into
`(brand, country-or-"unknown")` via the parenthetical pattern, then the
trailing-words country scan, then the substring fallback with `\b`-bounded
removal of the country name. -/
def extract_channel_info (channel_name : PS) : PS × PS :=
  let name := pyStrip channel_name
  match parenExtract name with
  | some (g1, g2) =>
    let channel_brand := pyStrip g1
    let country_part := pyLower (pyStrip g2)
    (channel_brand, (COUNTRY_CODES.lookup country_part).getD (country_part.take 2))
  | none =>
    let words := splitWs name
    match (if words.length ≥ 2 then wordsCountry words else none) with
    | some r => r
    | none =>
      let name_lower := pyLower name
      match COUNTRY_CODES.findSome? (fun p =>
          if pyInfix p.1 name_lower then
            some (pyTitle (pyStrip (reSubTokens [p.1] name_lower)), p.2)
          else none) with
      | some r => r
      | none => (name, ps "unknown")

/-! ## Alias index builder (`build_epg_lookup`) -/

/-- The alias index: a Python `defaultdict(list)` snapshot, keys in first
insertion order, each key mapping to its appended values in order. -/
abbrev AliasIndex := List (PS × List PS)

/-- `epg_lookup[key].append(val)` on a `defaultdict(list)`: append to an
existing key's list, else add the key at the end. -/
def addEntry (idx : AliasIndex) (key : PS) (val : PS) : AliasIndex :=
  if (idx.lookup key).isSome then
    idx.map (fun p => if p.1 = key then (p.1, p.2 ++ [val]) else p)
  else idx ++ [(key, [val])]

/-- `re.sub(r'[^a-zA-Z0-9\s]', ' ', s)` — ASCII alphanumerics are kept, other
non-whitespace characters become spaces. -/
def keepAlnumWs (cs : PS) : PS :=
  cs.map (fun c => if c.isAlphanum || pyIsSpace c then c else ' ')

/-- The channel-name cleanup of `build_epg_lookup`: strip punctuation,
collapse whitespace, trim. -/
def cleanChannel (cs : PS) : PS := pyStrip (collapseWs (keepAlnumWs cs))

/-- One line's contribution to the lookup in `build_epg_lookup`. -/
def epgLookupStep (idx : AliasIndex) (rawLine : PS) : AliasIndex :=
  let line := pyStrip rawLine
  if line = [] ∨ line.head? = some '#' then idx
  else
    let parts := line.splitOn '.'
    if parts.length ≥ 2 then
      let potential_channel := parts.headD []
      let lastPart := parts.getLastD []
      let clean_channel := cleanChannel potential_channel
      let idx := addEntry idx (pyLower clean_channel) line
      let idx := addEntry idx (pyLower line) line
      if lastPart.length = 2 then
        addEntry idx (pyLower clean_channel ++ '.' :: lastPart) line
      else idx
    else
      let clean := cleanChannel line
      addEntry (addEntry idx (pyLower clean) line) (pyLower line) line

/-- `build_epg_lookup` of `events.py`: fold the reference lines into the
multi-key lookup. -/
def build_epg_lookup (epg_text_lines : List PS) : AliasIndex :=
  epg_text_lines.foldl epgLookupStep []

/-! ## Brand variations and the match resolver (`find_best_epg_match`) -/

/-- The filler-token alternation `\b(tv|hd|sd|channel|network|sports?|news)\b`
of `generate_brand_variations`; `sports?` is tried greedily, hence
`"sports"` before `"sport"`. -/
def FILLER_TOKENS : List PS :=
  [ps "tv", ps "hd", ps "sd", ps "channel", ps "network",
   ps "sports", ps "sport", ps "news"]

/-- The `network_abbrevs` table of `generate_brand_variations`, in source
order. -/
def NETWORK_ABBREVS : List (PS × PS) :=
  [(ps "espn", ps "espn"), (ps "fox sports", ps "foxsports"),
   (ps "sky sports", ps "skysports"), (ps "tnt sports", ps "tntsports"),
   (ps "bein sports", ps "beinsports")]

/-- `variations.add(x)`: the Python set is modelled as an insertion-ordered
duplicate-free list (CPython iteration order is stable within a run; none of
the verified properties depends on the order among variations). -/
def addVar (l : List PS) (x : PS) : List PS := if x ∈ l then l else l ++ [x]

/-- `generate_brand_variations` of `events.py`. -/
def generate_brand_variations (brand : PS) : List PS :=
  let brand_lower := pyLower brand
  let clean_brand := pyStrip (reSubTokens FILLER_TOKENS brand_lower)
  let v : List PS := if clean_brand ≠ [] then addVar [] clean_brand else []
  let v :=
    if pyInfix (ps "two") brand_lower then
      addVar (addVar v (pyReplace brand_lower (ps "two") (ps "2")))
        (pyReplace brand_lower (ps " two") (ps "2"))
    else if pyInfix (ps "three") brand_lower then
      addVar (addVar v (pyReplace brand_lower (ps "three") (ps "3")))
        (pyReplace brand_lower (ps " three") (ps "3"))
    else v
  let v :=
    if pyInfix (ps "sports") brand_lower then
      addVar v (pyReplace brand_lower (ps "sports") (ps "sport"))
    else if pyInfix (ps "sport") brand_lower then
      addVar v (pyReplace brand_lower (ps "sport") (ps "sports"))
    else v
  NETWORK_ABBREVS.foldl (fun acc p =>
    if pyInfix p.1 brand_lower then addVar acc (pyReplace brand_lower p.1 p.2)
    else acc) v

/-- The `search_terms` list of `find_best_epg_match`, in the order the code
builds it: country-qualified brand, its `.hd` variant, the brand slug, the
bare brand, then each variation (country-qualified first when a country was
detected). -/
def search_terms (brand country : PS) : List PS :=
  let base :=
    if country ≠ ps "unknown" then
      [pyLower brand ++ '.' :: country, pyLower brand ++ '.' :: country ++ ps ".hd"]
    else []
  let brand_clean := removeWs (pyLower brand)
  let varTerms := (generate_brand_variations brand).flatMap fun v =>
    if country ≠ ps "unknown" then [v ++ '.' :: country, v] else [v]
  base ++ [brand_clean, pyLower brand] ++ varTerms

/-- `l[0]` on a Python list: the IndexError is made explicit. -/
def headE (l : List PS) : Except String PS :=
  match l with
  | [] => .error "IndexError"
  | x :: _ => .ok x

/-- The body of the `for term in search_terms` loop of
`find_best_epg_match`: on the first term that is a key, prefer the first
stored id containing `".<country>"` (case-insensitively), else take the first
stored id. -/
def tryTerms (idx : AliasIndex) (country : PS) : List PS → Except String (Option PS)
  | [] => .ok none
  | t :: rest =>
    match idx.lookup t with
    | none => tryTerms idx country rest
    | some ms =>
      if country ≠ ps "unknown" then
        match ms.filter (fun m => pyInfix ('.' :: country) (pyLower m)) with
        | c :: _ => .ok (some c)
        | [] => (headE ms).map some
      else (headE ms).map some

/-- The fuzzy fallback of `find_best_epg_match`
(`for epg_id, _ in epg_lookup.items(): if brand_clean in epg_id or epg_id in
brand_clean: return epg_lookup[epg_id][0]`): scan the keys in insertion
order and return the first stored id of the first key related to the brand
slug by substring containment in either direction; else the empty string. -/
def fuzzyFallback (brand_clean : PS) (epg_lookup : AliasIndex) : Except String PS :=
  match epg_lookup.find? (fun p => pyInfix brand_clean p.1 || pyInfix p.1 brand_clean) with
  | some p => headE p.2
  | none => .ok []

/-- `find_best_epg_match` of `events.py`: the exact/variation cascade over
`search_terms`, then the substring-containment fallback over all keys in
insertion order, else the empty string. -/
def find_best_epg_match (channel_name : PS) (epg_lookup : AliasIndex) :
    Except String PS :=
  let bc := extract_channel_info channel_name
  let brand_clean := removeWs (pyLower bc.1)
  match tryTerms epg_lookup bc.2 (search_terms bc.1 bc.2) with
  | .error e => .error e
  | .ok (some r) => .ok r
  | .ok none => fuzzyFallback brand_clean epg_lookup

/-! ## Entry normalizer (`_extract_cid`, `_channel_entries`) -/

/-- The JSON-ish values a schedule event's channel field can hold.  `vnone`
models Python `None` (a missing key via `dict.get`). -/
inductive PyVal where
  | vstr (s : PS)
  | vlist (l : List PyVal)
  | vdict (fields : List (PS × PyVal))
  | vnone

/-- `str(v)` as used on channel entries; for non-string values the Python
`repr` text is opaque to every verified property, so a fixed stand-in is
used. -/
def pyStrOf : PyVal → PS
  | .vstr s => s
  | _ => ps "<obj>"

/-- Python truthiness of the modelled values (`if not val: continue`). -/
def pyFalsy : PyVal → Bool
  | .vnone => true
  | .vstr s => s.isEmpty
  | .vlist l => l.isEmpty
  | .vdict f => f.isEmpty

/-- `_extract_cid` of `events.py`: `str(item["channel_id"])` for a dict —
raising `KeyError` when the key is missing — else `str(item)`. -/
def _extract_cid (item : PyVal) : Except String PS :=
  match item with
  | .vdict fs =>
    match fs.lookup (ps "channel_id") with
    | some v => .ok (pyStrOf v)
    | none => .error "KeyError: channel_id"
  | other => .ok (pyStrOf other)

/-- `_channel_entries` of `events.py`: for `"channels"` and `"channels2"`,
skip falsy values, splice lists, treat a dict with a `channel_id` key as a
single entry and any other dict as a mapping whose values are the entries,
and yield any other value itself. -/
def _channel_entries (event : List (PS × PyVal)) : List PyVal :=
  [ps "channels", ps "channels2"].flatMap fun key =>
    match event.lookup key with
    | none => []
    | some v =>
      if pyFalsy v then []
      else
        match v with
        | .vlist l => l
        | .vdict fs =>
          if (fs.lookup (ps "channel_id")).isSome then [.vdict fs]
          else fs.map Prod.snd
        | other => [other]

/-- The per-event part of `extract_channel_ids`: extract the channel id of
every entry the event yields; a raised `KeyError` propagates. -/
def extract_cids_of_event (event : List (PS × PyVal)) : Except String (List PS) :=
  (_channel_entries event).mapM _extract_cid

/-! ## Candidate generator and stream map (`build_stream_map`) -/

/-- A candidate endpoint URL. -/
abbrev Url := PS

/-- The `URL_TEMPLATES` of `events.py` (identical in `main.py`), each split
at its `{num}` placeholder. -/
def URL_TEMPLATES : List (PS × PS) := [
  (ps "https://nfsnew.newkso.ru/nfs/premium", ps "/mono.m3u8"),
  (ps "https://windnew.newkso.ru/wind/premium", ps "/mono.m3u8"),
  (ps "https://zekonew.newkso.ru/zeko/premium", ps "/mono.m3u8"),
  (ps "https://dokko1new.newkso.ru/dokko1/premium", ps "/mono.m3u8"),
  (ps "https://ddy6new.newkso.ru/ddy6/premium", ps "/mono.m3u8")]

/-- `tpl.format(num=i)`. -/
def formatTemplate (t : PS × PS) (num : PS) : Url := t.1 ++ num ++ t.2

/-- The `candidates` dict of `build_stream_map`
(`{tpl.format(num=i): i for i in channel_ids for tpl in URL_TEMPLATES}`) as
an insertion-ordered association list URL → identifier. -/
def candidatesFor (ids : List PS) : List (Url × PS) :=
  ids.flatMap fun i => URL_TEMPLATES.map fun t => (formatTemplate t i, i)

/-- Python `dict.setdefault(k, v)`: insert only when the key is absent. -/
def setdefault (m : List (PS × Url)) (k : PS) (v : Url) : List (PS × Url) :=
  if (m.lookup k).isSome then m else m ++ [(k, v)]

/-- One completed future of `build_stream_map`'s aggregation loop:
`if res: id_to_url.setdefault(candidates[res], res)`, where a candidate's
successful validation returns the URL itself.  The `none` branch of the
candidate lookup is unreachable when the completion order enumerates the
candidate URLs, as it does in the run. -/
def streamStep (cand : List (Url × PS)) (validate : Url → Bool)
    (m : List (PS × Url)) (u : Url) : List (PS × Url) :=
  if validate u then
    match cand.lookup u with
    | some i => setdefault m i u
    | none => m
  else m

/-- `build_stream_map` of `events.py`: `completionOrder` is the order in
which `as_completed` delivers the candidate URLs' results, `validate`
tells which URLs `validate_single` accepts (it returns the URL itself on
success, `None` otherwise). -/
def build_stream_map (ids : List PS) (validate : Url → Bool)
    (completionOrder : List Url) : List (PS × Url) :=
  completionOrder.foldl (streamStep (candidatesFor ids) validate) []

/-! ## The `premium(\d+)/mono\.m3u8` token (main.py's `PREMIUM_RE`) -/

/-- Try the pattern `premium(\d+)/mono\.m3u8` at the head of `cs`. -/
def matchPremiumAt (cs : PS) : Option PS :=
  if (ps "premium").isPrefixOf cs then
    if ((cs.drop 7).takeWhile Char.isDigit) ≠ [] ∧
        (ps "/mono.m3u8").isPrefixOf
          ((cs.drop 7).drop ((cs.drop 7).takeWhile Char.isDigit).length) then
      some ((cs.drop 7).takeWhile Char.isDigit)
    else none
  else none

/-- Fueled scan for `premiumToken`. -/
def premiumTokenGo : Nat → PS → Option PS
  | 0, _ => none
  | fuel+1, cs =>
    match matchPremiumAt cs with
    | some d => some d
    | none =>
      match cs with
      | [] => none
      | _ :: rest => premiumTokenGo fuel rest

/-- `PREMIUM_RE.search(u).group(1)`: the digit token of the first occurrence
of `premium(\d+)/mono\.m3u8` in the URL, if any. -/
def premiumToken (u : Url) : Option PS := premiumTokenGo (u.length + 1) u

/-! ## Concurrent validator (`validate_single`) -/

/-- The outcome of one network probe: an HTTP status, or a raised
`requests.RequestException` (connection failure, timeout). -/
inductive Probe where
  | status (code : Nat)
  | exn
  deriving DecidableEq

/-- The probes one loop iteration of `validate_single` may issue: the HEAD
probe and the fallback GET probe. -/
structure Attempt where
  head : Probe
  get : Probe
  deriving DecidableEq

/-- One iteration neither returns nor raises: HEAD yields 429 (sleep and
retry), or HEAD is inconclusive and the GET fallback is also inconclusive. -/
def attemptContinues (a : Attempt) : Bool :=
  match a.head with
  | .exn => false
  | .status s =>
    if s = 200 ∨ s = 404 then false
    else if s = 429 then true
    else
      match a.get with
      | .exn => false
      | .status g => !(g = 200 || g = 404)

/-- One iteration raises `requests.RequestException`: on the HEAD probe, or
on the GET fallback reached after an inconclusive HEAD. -/
def attemptRaises (a : Attempt) : Bool :=
  match a.head with
  | .exn => true
  | .status s =>
    if s = 200 ∨ s = 404 ∨ s = 429 then false
    else a.get = .exn

/-- The retry loop of `validate_single`; `env k` holds the probe outcomes of
iteration `k`, `fuel` the remaining iterations of `for _ in range(3)`. -/
def vsGo (url : Url) (env : Nat → Attempt) : Nat → Nat → Option Url
  | 0, _ => none
  | fuel+1, k =>
    match (env k).head with
    | .exn => none
    | .status s =>
      if s = 200 then some url
      else if s = 404 then none
      else if s = 429 then vsGo url env fuel (k+1)
      else
        match (env k).get with
        | .exn => none
        | .status g =>
          if g = 200 then some url
          else if g = 404 then none
          else vsGo url env fuel (k+1)

/-- `validate_single` of `events.py`: up to three attempts; HEAD 200 accepts,
404 rejects, 429 backs off and retries, anything else falls back to a GET
within the same attempt; a transport exception rejects immediately. -/
def validate_single (url : Url) (env : Nat → Attempt) : Option Url :=
  vsGo url env 3 0

/-- `optOr a b` is `a` unless `a` is `none`. -/
def optOr {α : Type} : Option α → Option α → Option α
  | some v, _ => some v
  | none, b => b

/-- A completed URL contributes an entry for identifier `id` iff it is
accepted and the candidate dict maps it to `id`. -/
def acceptsFor (cand : List (Url × PS)) (validate : Url → Bool) (id : PS)
    (u : Url) : Bool :=
  validate u && (cand.lookup u == some id)

/-- An entry yielded by `_channel_entries` on which `_extract_cid` cannot
raise: any non-dict value, or a dict carrying the `channel_id` key. -/
def entrySafe (v : PyVal) : Bool :=
  match v with
  | .vdict fs => (fs.lookup (ps "channel_id")).isSome
  | _ => true

/-! ### Concrete fixtures used by individual claims -/

/-- The single reference line of the C2 scenario. -/
def c2Line : PS := ps "ABC Sports 2 HD.uk"

/-- An alias index holding only the key `"foxsports"` (C3 scenario). -/
def foxIdx : AliasIndex := [(ps "foxsports", [ps "FoxSports.us"])]

/-- Alias key `"x"` resolving to `"X.uk"` then `"X.de"` (C4 scenario). -/
def xIdx : AliasIndex := [(ps "x", [ps "X.uk", ps "X.de"])]

/-- Alias key `"x"` resolving to `"X.uk.backup"` then `"X.uk"`
(C4 counterexample). -/
def xIdx2 : AliasIndex := [(ps "x", [ps "X.uk.backup", ps "X.uk"])]

/-- An index whose only key `".fr"` carries two ids (C10 counterexample). -/
def c10Idx : AliasIndex := [(ps ".fr", [ps "A.de", ps "B.fr"])]

/-- A schedule event whose keyed channel mapping holds an entry without a
`channel_id` field (C6 counterexample). -/
def c6BadEvent : List (PS × PyVal) :=
  [(ps "channels", .vdict [(ps "a", .vdict [(ps "foo", .vstr (ps "1"))])])]

/-- A well-shaped schedule event exercising the scalar, list, keyed-entry and
plain-mapping channel shapes (C6 witness). -/
def c6GoodEvent : List (PS × PyVal) :=
  [(ps "channels", .vlist [.vstr (ps "5"),
     .vdict [(ps "channel_id", .vstr (ps "7")),
             (ps "channel_name", .vstr (ps "Seven"))]]),
   (ps "channels2", .vdict [(ps "channel_id", .vstr (ps "9"))])]

/-! ## Association-list helper lemmas -/

@[simp] theorem optOr_some {α : Type} (v : α) (b : Option α) :
    optOr (some v) b = some v := rfl

@[simp] theorem optOr_none {α : Type} (b : Option α) : optOr none b = b := rfl

theorem lookup_nil {β : Type} (k : PS) : ([] : List (PS × β)).lookup k = none := rfl

theorem lookup_cons {β : Type} (k k' : PS) (v : β) (m : List (PS × β)) :
    ((k', v) :: m).lookup k = if k = k' then some v else m.lookup k := by
  by_cases h : k = k'
  · simp only [List.lookup, beq_iff_eq.mpr h, if_pos h]
  · simp only [List.lookup, beq_eq_false_iff_ne.mpr h, if_neg h]

theorem lookup_append_right {β : Type} (k : PS) (m m' : List (PS × β))
    (h : m.lookup k = none) : (m ++ m').lookup k = m'.lookup k := by
  induction m with
  | nil => rfl
  | cons p rest ih =>
    obtain ⟨k', v⟩ := p
    rw [lookup_cons] at h
    by_cases hk : k = k'
    · rw [if_pos hk] at h
      exact absurd h (by simp)
    · rw [if_neg hk] at h
      rw [List.cons_append, lookup_cons, if_neg hk]
      exact ih h

theorem lookup_append_left {β : Type} (k : PS) (m m' : List (PS × β)) (v : β)
    (h : m.lookup k = some v) : (m ++ m').lookup k = some v := by
  induction m with
  | nil => exact absurd h (by simp [lookup_nil])
  | cons p rest ih =>
    obtain ⟨k', w⟩ := p
    rw [lookup_cons] at h
    rw [List.cons_append, lookup_cons]
    by_cases hk : k = k'
    · rw [if_pos hk] at h ⊢
      exact h
    · rw [if_neg hk] at h ⊢
      exact ih h

theorem lookup_eq_none_iff {β : Type} (k : PS) (m : List (PS × β)) :
    m.lookup k = none ↔ k ∉ m.map Prod.fst := by
  induction m with
  | nil => simp [lookup_nil]
  | cons p rest ih =>
    obtain ⟨k', v⟩ := p
    rw [lookup_cons]
    by_cases hk : k = k'
    · rw [if_pos hk]
      refine iff_of_false (fun h => Option.noConfusion h) (fun hnot => hnot ?_)
      rw [List.map_cons, hk]
      exact List.mem_cons_self _ _
    · simp only [if_neg hk, ih, List.map_cons, List.mem_cons]
      constructor
      · intro hnot hor
        rcases hor with h | h
        · exact hk h
        · exact hnot h
      · intro hnot h
        exact hnot (Or.inr h)

theorem lookup_mem {β : Type} (k : PS) (m : List (PS × β)) (v : β)
    (h : m.lookup k = some v) : (k, v) ∈ m := by
  induction m with
  | nil => exact absurd h (by simp [lookup_nil])
  | cons p rest ih =>
    obtain ⟨k', w⟩ := p
    rw [lookup_cons] at h
    by_cases hk : k = k'
    · rw [if_pos hk] at h
      obtain rfl := hk
      obtain rfl : w = v := by injection h
      exact List.mem_cons_self _ _
    · rw [if_neg hk] at h
      exact List.mem_cons_of_mem _ (ih h)

theorem lookup_of_mem_nodup {β : Type} (k : PS) (m : List (PS × β)) (v : β)
    (hmem : (k, v) ∈ m) (hnd : (m.map Prod.fst).Nodup) : m.lookup k = some v := by
  induction m with
  | nil => simp at hmem
  | cons p rest ih =>
    obtain ⟨k', w⟩ := p
    simp only [List.map_cons, List.nodup_cons] at hnd
    rw [lookup_cons]
    rcases List.mem_cons.mp hmem with heq | htail
    · obtain ⟨rfl, rfl⟩ := Prod.mk.injEq k v k' w ▸ heq
      simp
    · have hk : k ≠ k' := by
        rintro rfl
        exact hnd.1 (List.mem_map.mpr ⟨(k, v), htail, rfl⟩)
      rw [if_neg hk]
      exact ih htail hnd.2

theorem countP_eq_one_of_lookup {β : Type} (k : PS) (m : List (PS × β)) (v : β)
    (hnd : (m.map Prod.fst).Nodup) (h : m.lookup k = some v) :
    m.countP (fun e => e.1 == k) = 1 := by
  induction m with
  | nil => exact absurd h (by simp [lookup_nil])
  | cons p rest ih =>
    obtain ⟨k', w⟩ := p
    simp only [List.map_cons, List.nodup_cons] at hnd
    rw [lookup_cons] at h
    rw [List.countP_cons]
    by_cases hk : k = k'
    · obtain rfl := hk
      have hz : rest.countP (fun e => e.1 == k) = 0 := by
        rw [List.countP_eq_zero]
        intro e he hbe
        exact hnd.1 (List.mem_map.mpr ⟨e, he, beq_iff_eq.mp hbe⟩)
      rw [hz]
      simp
    · rw [if_neg hk] at h
      rw [ih hnd.2 h]
      simp [beq_eq_false_iff_ne.mpr (fun hh => hk hh.symm)]

/-! ## Stream-map fold lemmas -/

theorem streamFold_lookup (cand : List (Url × PS)) (validate : Url → Bool)
    (id : PS) (order : List Url) :
    ∀ m : List (PS × Url),
      ((order.foldl (streamStep cand validate) m).lookup id) =
        optOr (m.lookup id) ((order.filter (acceptsFor cand validate id)).head?) := by
  induction order with
  | nil =>
    intro m
    cases h : m.lookup id <;> simp only [List.foldl_nil, h, List.filter_nil,
      List.head?_nil, optOr_some, optOr_none]
  | cons u rest ih =>
    intro m
    rw [List.foldl_cons, ih]
    by_cases hv : validate u
    · cases hcu : cand.lookup u with
      | none =>
        have hP : acceptsFor cand validate id u = false := by
          simp [acceptsFor, hv, hcu]
        rw [List.filter_cons, hP]
        simp only [Bool.false_eq_true, if_false]
        have hstep : streamStep cand validate m u = m := by
          simp [streamStep, hv, hcu]
        rw [hstep]
      | some i =>
        by_cases hi : i = id
        · rw [hi] at hcu
          have hP : acceptsFor cand validate id u = true := by
            simp [acceptsFor, hv, hcu]
          rw [List.filter_cons, hP]
          simp only [if_true, List.head?_cons]
          have hstep : streamStep cand validate m u = setdefault m id u := by
            simp [streamStep, hv, hcu]
          rw [hstep]
          cases hm : m.lookup id with
          | some v =>
            have heq : setdefault m id u = m := by simp [setdefault, hm]
            rw [heq, hm]
            rfl
          | none =>
            have hsd : (setdefault m id u).lookup id = some u := by
              have hins : setdefault m id u = m ++ [(id, u)] := by
                simp [setdefault, hm]
              rw [hins, lookup_append_right id m _ hm, lookup_cons, if_pos rfl]
            rw [hsd]
            rfl
        · have hP : acceptsFor cand validate id u = false := by
            simp only [acceptsFor, hv, Bool.true_and, hcu]
            simp [hi]
          rw [List.filter_cons, hP]
          simp only [Bool.false_eq_true, if_false]
          have hstep : streamStep cand validate m u = setdefault m i u := by
            simp [streamStep, hv, hcu]
          rw [hstep]
          have : (setdefault m i u).lookup id = m.lookup id := by
            by_cases hm : (m.lookup i).isSome
            · simp [setdefault, hm]
            · have hmn : m.lookup i = none := Option.not_isSome_iff_eq_none.mp hm
              have hins : setdefault m i u = m ++ [(i, u)] := by
                simp [setdefault, hmn]
              rw [hins]
              cases hmid : m.lookup id with
              | some v => exact lookup_append_left id m _ v hmid
              | none =>
                rw [lookup_append_right id m _ hmid, lookup_cons,
                  if_neg (fun h => hi h.symm)]
                rfl
          rw [this]
    · have hP : acceptsFor cand validate id u = false := by simp [acceptsFor, hv]
      rw [List.filter_cons, hP]
      simp only [Bool.false_eq_true, if_false]
      have hstep : streamStep cand validate m u = m := by simp [streamStep, hv]
      rw [hstep]

theorem streamFold_keys_nodup (cand : List (Url × PS)) (validate : Url → Bool)
    (order : List Url) :
    ∀ m : List (PS × Url), ((m.map Prod.fst).Nodup) →
      (((order.foldl (streamStep cand validate) m).map Prod.fst).Nodup) := by
  induction order with
  | nil => intro m hm; simpa using hm
  | cons u rest ih =>
    intro m hm
    rw [List.foldl_cons]
    refine ih _ ?_
    by_cases hv : validate u
    · cases hcu : cand.lookup u with
      | none => simpa [streamStep, hv, hcu] using hm
      | some i =>
        have hstep : streamStep cand validate m u = setdefault m i u := by
          simp [streamStep, hv, hcu]
        rw [hstep]
        by_cases hmi : (m.lookup i).isSome
        · simpa [setdefault, hmi] using hm
        · have hmn : m.lookup i = none := Option.not_isSome_iff_eq_none.mp hmi
          have hins : setdefault m i u = m ++ [(i, u)] := by
            simp [setdefault, hmn]
          rw [hins, List.map_append, List.map_cons, List.map_nil, List.nodup_append]
          refine ⟨hm, List.nodup_singleton i, ?_⟩
          intro a ha hb
          have hai : a = i := by simpa using hb
          rw [hai] at ha
          exact (lookup_eq_none_iff i m).mp hmn ha
    · simpa [streamStep, hv] using hm

/-- The central characterisation of `build_stream_map`: the entry stored for
an identifier is exactly the first accepted candidate of that identifier in
completion order (and absent when there is none). -/
theorem build_stream_map_lookup (ids : List PS) (validate : Url → Bool)
    (order : List Url) (id : PS) :
    (build_stream_map ids validate order).lookup id =
      (order.filter (acceptsFor (candidatesFor ids) validate id)).head? := by
  rw [build_stream_map, streamFold_lookup]
  rfl

/-! ## The embedded numeric token of a templated URL -/

theorem isPrefixOf_append_self (p x : PS) : p.isPrefixOf (p ++ x) = true := by
  induction p with
  | nil => simp [List.isPrefixOf]
  | cons c cs ih => simp [List.isPrefixOf, ih]

theorem isPrefixOf_self (p : PS) : p.isPrefixOf p = true := by
  have h := isPrefixOf_append_self p []
  rwa [List.append_nil] at h

theorem isPrefixOf_append_of_le (p x y : PS) (h : p.length ≤ x.length) :
    p.isPrefixOf (x ++ y) = p.isPrefixOf x := by
  induction p generalizing x with
  | nil => simp [List.isPrefixOf]
  | cons c cs ih =>
    cases x with
    | nil => simp at h
    | cons b bs =>
      simp only [List.cons_append, List.isPrefixOf, List.append_eq]
      rw [ih bs (by simpa using h)]

theorem takeWhile_append_of_all (f : Char → Bool) (d s : PS)
    (h : ∀ c ∈ d, f c = true) : (d ++ s).takeWhile f = d ++ s.takeWhile f := by
  induction d with
  | nil => rfl
  | cons c cs ih =>
    rw [List.cons_append, List.takeWhile_cons, h c (List.mem_cons_self _ _),
      if_pos rfl, ih (fun x hx => h x (List.mem_cons_of_mem _ hx)), List.cons_append]

theorem matchPremiumAt_of_not_prefix (cs : PS)
    (h : (ps "premium").isPrefixOf cs = false) : matchPremiumAt cs = none := by
  simp [matchPremiumAt, h]

theorem premiumTokenGo_base (d : PS) (fuel : Nat) (hd : d ≠ [])
    (hdig : ∀ c ∈ d, c.isDigit = true) :
    premiumTokenGo (fuel + 1) (ps "premium" ++ (d ++ ps "/mono.m3u8")) = some d := by
  have hpre : (ps "premium").isPrefixOf (ps "premium" ++ (d ++ ps "/mono.m3u8")) = true :=
    isPrefixOf_append_self _ _
  have h7 : List.length (ps "premium") = 7 := rfl
  have hdrop : (ps "premium" ++ (d ++ ps "/mono.m3u8")).drop 7 = d ++ ps "/mono.m3u8" := by
    rw [← h7]
    exact List.drop_left _ _
  have htw : (d ++ ps "/mono.m3u8").takeWhile Char.isDigit = d := by
    rw [takeWhile_append_of_all Char.isDigit d _ hdig]
    have : (ps "/mono.m3u8").takeWhile Char.isDigit = [] := by decide
    rw [this, List.append_nil]
  have hdl : (d ++ ps "/mono.m3u8").drop d.length = ps "/mono.m3u8" :=
    List.drop_left _ _
  have hmatch : matchPremiumAt (ps "premium" ++ (d ++ ps "/mono.m3u8")) = some d := by
    rw [matchPremiumAt, hpre, if_pos rfl, hdrop, htw, hdl]
    simp [hd, isPrefixOf_self]
  simp only [premiumTokenGo, hmatch]

theorem premiumTokenGo_shift (a w : PS) (fuel : Nat)
    (ha : ∀ k, k < a.length →
      ((ps "premium").isPrefixOf (a.drop k ++ ps "premium")) = false) :
    premiumTokenGo (a.length + fuel) (a ++ (ps "premium" ++ w)) =
      premiumTokenGo fuel (ps "premium" ++ w) := by
  induction a with
  | nil => simp
  | cons c a' ih =>
    have hlen : (c :: a').length + fuel = (a'.length + fuel) + 1 := by
      simp [List.length_cons, Nat.add_right_comm]
    rw [hlen]
    have hpre : (ps "premium").isPrefixOf (c :: (a' ++ (ps "premium" ++ w))) = false := by
      have hassoc : c :: (a' ++ (ps "premium" ++ w)) = ((c :: a') ++ ps "premium") ++ w := by
        simp [List.append_assoc]
      rw [hassoc, isPrefixOf_append_of_le _ _ _ (by rw [List.length_append]; omega)]
      have h0 := ha 0 (Nat.succ_pos _)
      simpa using h0
    have hmatch : matchPremiumAt (c :: (a' ++ (ps "premium" ++ w))) = none :=
      matchPremiumAt_of_not_prefix _ hpre
    have hstep : premiumTokenGo ((a'.length + fuel) + 1) ((c :: a') ++ (ps "premium" ++ w)) =
        premiumTokenGo (a'.length + fuel) (a' ++ (ps "premium" ++ w)) := by
      show premiumTokenGo ((a'.length + fuel) + 1) (c :: (a' ++ (ps "premium" ++ w))) = _
      simp only [premiumTokenGo, hmatch]
    rw [hstep]
    exact ih (fun k hk => ha (k + 1) (Nat.succ_lt_succ hk))

theorem premiumToken_concat (a d : PS) (hd : d ≠ [])
    (hdig : ∀ c ∈ d, c.isDigit = true)
    (ha : ∀ k, k < a.length →
      ((ps "premium").isPrefixOf (a.drop k ++ ps "premium")) = false) :
    premiumToken (a ++ (ps "premium" ++ (d ++ ps "/mono.m3u8"))) = some d := by
  rw [premiumToken]
  have hlen : (a ++ (ps "premium" ++ (d ++ ps "/mono.m3u8"))).length + 1 =
      a.length + ((ps "premium" ++ (d ++ ps "/mono.m3u8")).length + 1) := by
    rw [List.length_append]
    omega
  rw [hlen, premiumTokenGo_shift a (d ++ ps "/mono.m3u8") _ ha]
  exact premiumTokenGo_base d _ hd hdig

/-- The extraction lemma: the `PREMIUM_RE` token of a templated URL is
exactly the substituted identifier (for digit identifiers). -/
theorem premiumToken_format (t : PS × PS) (ht : t ∈ URL_TEMPLATES) (d : PS)
    (hd : d ≠ []) (hdig : ∀ c ∈ d, c.isDigit = true) :
    premiumToken (formatTemplate t d) = some d := by
  have run : ∀ a : PS,
      (∀ k, k < a.length →
        ((ps "premium").isPrefixOf (a.drop k ++ ps "premium")) = false) →
      t.1 = a ++ ps "premium" → t.2 = ps "/mono.m3u8" →
      premiumToken (formatTemplate t d) = some d := by
    intro a hak h1 h2
    have : formatTemplate t d = a ++ (ps "premium" ++ (d ++ ps "/mono.m3u8")) := by
      rw [formatTemplate, h1, h2]
      simp [List.append_assoc]
    rw [this]
    exact premiumToken_concat a d hd hdig hak
  simp only [URL_TEMPLATES, List.mem_cons, List.not_mem_nil, or_false] at ht
  rcases ht with h | h | h | h | h
  · exact run (ps "https://nfsnew.newkso.ru/nfs/") (by decide) (by rw [h]; decide) (by rw [h])
  · exact run (ps "https://windnew.newkso.ru/wind/") (by decide) (by rw [h]; decide) (by rw [h])
  · exact run (ps "https://zekonew.newkso.ru/zeko/") (by decide) (by rw [h]; decide) (by rw [h])
  · exact run (ps "https://dokko1new.newkso.ru/dokko1/") (by decide) (by rw [h]; decide) (by rw [h])
  · exact run (ps "https://ddy6new.newkso.ru/ddy6/") (by decide) (by rw [h]; decide) (by rw [h])

/-! ## The candidate dict is injective on digit identifiers -/

theorem mem_candidatesFor (ids : List PS) (u : Url) (i : PS) :
    (u, i) ∈ candidatesFor ids ↔
      i ∈ ids ∧ ∃ t ∈ URL_TEMPLATES, u = formatTemplate t i := by
  simp only [candidatesFor, List.mem_flatMap, List.mem_map]
  constructor
  · rintro ⟨j, hj, t, ht, heq⟩
    obtain ⟨h1, h2⟩ := Prod.mk.injEq .. ▸ heq
    subst h2
    exact ⟨hj, t, ht, h1.symm⟩
  · rintro ⟨hi, t, ht, heq⟩
    exact ⟨i, hi, t, ht, by rw [heq]⟩

theorem take_formatTemplate (t : PS × PS) (h10 : 10 ≤ t.1.length) (i : PS) :
    (formatTemplate t i).take 10 = t.1.take 10 := by
  rw [formatTemplate, List.append_assoc, List.take_append_of_le_length h10]

theorem formatTemplate_inj (t t' : PS × PS) (ht : t ∈ URL_TEMPLATES)
    (ht' : t' ∈ URL_TEMPLATES) (i i' : PS)
    (h : formatTemplate t i = formatTemplate t' i') : t = t' ∧ i = i' := by
  have ten_le : ∀ s ∈ URL_TEMPLATES, 10 ≤ s.1.length := by decide
  have key : ∀ s ∈ URL_TEMPLATES, ∀ s' ∈ URL_TEMPLATES,
      s.1.take 10 = s'.1.take 10 → s = s' := by decide
  have hteq : t = t' := by
    have h10 : (formatTemplate t i).take 10 = (formatTemplate t' i').take 10 := by
      rw [h]
    rw [take_formatTemplate t (ten_le t ht) i,
      take_formatTemplate t' (ten_le t' ht') i'] at h10
    exact key t ht t' ht' h10
  refine ⟨hteq, ?_⟩
  subst hteq
  rw [formatTemplate, formatTemplate, List.append_assoc, List.append_assoc] at h
  have h2 := List.append_cancel_left h
  exact List.append_cancel_right h2

theorem candidatesFor_keys_nodup (ids : List PS) (h : ids.Nodup) :
    ((candidatesFor ids).map Prod.fst).Nodup := by
  induction ids with
  | nil => simp [candidatesFor]
  | cons i rest ih =>
    rw [List.nodup_cons] at h
    have hmapsimp : (candidatesFor (i :: rest)).map Prod.fst =
        (URL_TEMPLATES.map (fun t => formatTemplate t i))
          ++ (candidatesFor rest).map Prod.fst := by
      simp [candidatesFor, List.map_map]
    rw [hmapsimp, List.nodup_append]
    refine ⟨?_, ih h.2, ?_⟩
    · have hutnd : URL_TEMPLATES.Nodup := by decide
      refine List.Nodup.map_on ?_ hutnd
      intro t ht t' ht' heq
      exact (formatTemplate_inj t t' ht ht' i i heq).1
    · intro u hu hu'
      obtain ⟨t, ht, rfl⟩ := List.mem_map.mp hu
      have : ∃ j, (formatTemplate t i, j) ∈ candidatesFor rest := by
        rcases List.mem_map.mp hu' with ⟨⟨u', j⟩, hmem, heq⟩
        obtain rfl : u' = formatTemplate t i := heq
        exact ⟨j, hmem⟩
      obtain ⟨j, hj⟩ := this
      obtain ⟨hjrest, t', ht', heq⟩ := (mem_candidatesFor rest _ j).mp hj
      obtain ⟨-, rfl⟩ := formatTemplate_inj t t' ht ht' i j heq
      exact h.1 hjrest

/-! ## Claim theorems: C1 and C7 (stream map) -/

/-- C1: for every identifier with at least one candidate URL accepted by the
validator, the resulting stream map holds exactly one entry for that
identifier — the first accepted candidate in completion order, later
acceptances for the identifier being discarded by `setdefault` — and the
numeric `premium(\d+)/mono.m3u8` token embedded in the stored endpoint URL is
exactly that identifier. -/
theorem c1_stream_map_first_accept (ids : List PS) (validate : Url → Bool)
    (order : List Url) (id : PS)
    (hnd : ids.Nodup)
    (hdig : ∀ i ∈ ids, i ≠ [] ∧ ∀ c ∈ i, c.isDigit = true)
    (hperm : order.Perm ((candidatesFor ids).map Prod.fst))
    (hid : id ∈ ids)
    (hacc : ∃ t ∈ URL_TEMPLATES, validate (formatTemplate t id) = true) :
    ∃ u₀,
      (build_stream_map ids validate order).lookup id = some u₀
      ∧ (order.filter (acceptsFor (candidatesFor ids) validate id)).head? = some u₀
      ∧ (build_stream_map ids validate order).countP (fun e => e.1 == id) = 1
      ∧ premiumToken u₀ = some id := by
  obtain ⟨t, ht, hv⟩ := hacc
  have hknd : ((candidatesFor ids).map Prod.fst).Nodup := candidatesFor_keys_nodup ids hnd
  have hmem : (formatTemplate t id, id) ∈ candidatesFor ids :=
    (mem_candidatesFor ids _ id).mpr ⟨hid, t, ht, rfl⟩
  have hlu : (candidatesFor ids).lookup (formatTemplate t id) = some id :=
    lookup_of_mem_nodup _ _ _ hmem hknd
  have horder : formatTemplate t id ∈ order := by
    refine hperm.mem_iff.mpr ?_
    exact List.mem_map.mpr ⟨(formatTemplate t id, id), hmem, rfl⟩
  have hfilter : formatTemplate t id ∈
      order.filter (acceptsFor (candidatesFor ids) validate id) := by
    rw [List.mem_filter]
    exact ⟨horder, by simp [acceptsFor, hv, hlu]⟩
  obtain ⟨u₀, hu₀⟩ : ∃ u₀,
      (order.filter (acceptsFor (candidatesFor ids) validate id)).head? = some u₀ := by
    cases hh : (order.filter (acceptsFor (candidatesFor ids) validate id)).head? with
    | none =>
      rw [List.head?_eq_none_iff] at hh
      rw [hh] at hfilter
      simp at hfilter
    | some u => exact ⟨u, rfl⟩
  have hlook : (build_stream_map ids validate order).lookup id = some u₀ := by
    rw [build_stream_map_lookup]
    exact hu₀
  have hu₀mem : u₀ ∈ order.filter (acceptsFor (candidatesFor ids) validate id) :=
    List.mem_of_mem_head? (by rw [hu₀]; rfl)
  have hu₀acc : acceptsFor (candidatesFor ids) validate id u₀ = true :=
    (List.mem_filter.mp hu₀mem).2
  have hu₀lu : (candidatesFor ids).lookup u₀ = some id := by
    have := (Bool.and_eq_true _ _).mp hu₀acc
    exact beq_iff_eq.mp this.2
  have hu₀pair : (u₀, id) ∈ candidatesFor ids := lookup_mem _ _ _ hu₀lu
  obtain ⟨-, t₀, ht₀, hu₀eq⟩ := (mem_candidatesFor ids u₀ id).mp hu₀pair
  refine ⟨u₀, hlook, hu₀, ?_, ?_⟩
  · exact countP_eq_one_of_lookup id _ u₀
      (streamFold_keys_nodup _ _ order [] (by simp)) hlook
  · rw [hu₀eq]
    exact premiumToken_format t₀ ht₀ id (hdig id hid).1 (hdig id hid).2

/-- C7: an identifier none of whose candidate URLs is accepted is entirely
absent from the stream map — no entry at all, rather than a null or
placeholder value — and the build simply returns the map. -/
theorem c7_stream_map_absent (ids : List PS) (validate : Url → Bool)
    (order : List Url) (id : PS)
    (_hperm : order.Perm ((candidatesFor ids).map Prod.fst))
    (hnone : ∀ u ∈ order, ¬(validate u = true ∧
      (candidatesFor ids).lookup u = some id)) :
    (build_stream_map ids validate order).lookup id = none := by
  rw [build_stream_map_lookup]
  rw [List.head?_eq_none_iff, List.filter_eq_nil_iff]
  intro u hu
  intro hacc
  rcases (Bool.and_eq_true _ _).mp hacc with ⟨hv, hlu⟩
  exact hnone u hu ⟨hv, beq_iff_eq.mp hlu⟩

/-- Witness for C1: identifier `"1"`, every candidate reachable, completion
in candidate order. -/
theorem c1_stream_map_first_accept_witness :
    ∃ u₀,
      (build_stream_map [ps "1"] (fun _ => true)
        ((candidatesFor [ps "1"]).map Prod.fst)).lookup (ps "1") = some u₀
      ∧ (((candidatesFor [ps "1"]).map Prod.fst).filter
          (acceptsFor (candidatesFor [ps "1"]) (fun _ => true) (ps "1"))).head? = some u₀
      ∧ (build_stream_map [ps "1"] (fun _ => true)
          ((candidatesFor [ps "1"]).map Prod.fst)).countP (fun e => e.1 == ps "1") = 1
      ∧ premiumToken u₀ = some (ps "1") :=
  c1_stream_map_first_accept [ps "1"] (fun _ => true)
    ((candidatesFor [ps "1"]).map Prod.fst) (ps "1")
    (by decide) (by decide) (List.Perm.refl _) (by decide) (by decide)

/-- Witness for C7: identifier `"1"`, no candidate reachable. -/
theorem c7_stream_map_absent_witness :
    (build_stream_map [ps "1"] (fun _ => false)
      ((candidatesFor [ps "1"]).map Prod.fst)).lookup (ps "1") = none :=
  c7_stream_map_absent [ps "1"] (fun _ => false)
    ((candidatesFor [ps "1"]).map Prod.fst) (ps "1")
    (List.Perm.refl _)
    (by intro u hu hc; simpa using hc.1)

/-! ## Claim theorem: C8 (transport errors) -/

theorem vsGo_raise (url : Url) (env : Nat → Attempt) (fuel k : Nat)
    (h : attemptRaises (env k) = true) : vsGo url env (fuel + 1) k = none := by
  cases hh : (env k).head with
  | exn => simp [vsGo, hh]
  | status s =>
    rw [attemptRaises, hh] at h
    have h' : (if s = 200 ∨ s = 404 ∨ s = 429 then false
        else decide ((env k).get = Probe.exn)) = true := h
    by_cases hs : s = 200 ∨ s = 404 ∨ s = 429
    · rw [if_pos hs] at h'
      exact absurd h' (by simp)
    · rw [if_neg hs] at h'
      have hget : (env k).get = Probe.exn := of_decide_eq_true h'
      push_neg at hs
      simp [vsGo, hh, hs.1, hs.2.1, hs.2.2, hget]

theorem vsGo_continue (url : Url) (env : Nat → Attempt) (fuel k : Nat)
    (h : attemptContinues (env k) = true) :
    vsGo url env (fuel + 1) k = vsGo url env fuel (k + 1) := by
  cases hh : (env k).head with
  | exn =>
    rw [attemptContinues, hh] at h
    exact absurd h (by simp)
  | status s =>
    rw [attemptContinues, hh] at h
    have h' : (if s = 200 ∨ s = 404 then false
        else if s = 429 then true
        else
          match (env k).get with
          | Probe.exn => false
          | Probe.status g => !(decide (g = 200) || decide (g = 404))) = true := h
    by_cases hs : s = 200 ∨ s = 404
    · rw [if_pos hs] at h'
      exact absurd h' (by simp)
    · rw [if_neg hs] at h'
      push_neg at hs
      by_cases h429 : s = 429
      · simp [vsGo, hh, hs.1, hs.2, h429]
      · rw [if_neg h429] at h'
        cases hg : (env k).get with
        | exn =>
          rw [hg] at h'
          exact absurd h' (by simp)
        | status g =>
          rw [hg] at h'
          have hgne : ¬(g = 200 ∨ g = 404) := by
            intro hor
            rcases hor with h1 | h1 <;> simp [h1] at h'
          push_neg at hgne
          simp [vsGo, hh, hs.1, hs.2, h429, hg, hgne.1, hgne.2]

theorem vsGo_none_of_raise (url : Url) (env : Nat → Attempt) :
    ∀ (m k fuel : Nat),
      (∀ j, j < m → attemptContinues (env (k + j)) = true) →
      attemptRaises (env (k + m)) = true → m < fuel →
      vsGo url env fuel k = none := by
  intro m
  induction m with
  | zero =>
    intro k fuel _ hraise hlt
    cases fuel with
    | zero => exact absurd hlt (by omega)
    | succ f => exact vsGo_raise url env f k (by simpa using hraise)
  | succ m ih =>
    intro k fuel hcont hraise hlt
    cases fuel with
    | zero => exact absurd hlt (by omega)
    | succ f =>
      rw [vsGo_continue url env f k (by simpa using hcont 0 (Nat.succ_pos m))]
      refine ih (k + 1) f (fun j hj => ?_) ?_ (by omega)
      · have := hcont (j + 1) (by omega)
        simpa [Nat.add_assoc, Nat.add_comm 1 j] using this
      · have h' : k + 1 + m = k + (m + 1) := by omega
        rw [h']
        exact hraise

theorem bsm_present_of_accepted (ids : List PS) (vf : Url → Bool)
    (order : List Url) (id : PS) (u' : Url)
    (h1 : u' ∈ order) (h2 : vf u' = true)
    (h3 : (candidatesFor ids).lookup u' = some id) :
    ∃ w, (build_stream_map ids vf order).lookup id = some w := by
  rw [build_stream_map_lookup]
  have hmem : u' ∈ order.filter (acceptsFor (candidatesFor ids) vf id) := by
    rw [List.mem_filter]
    exact ⟨h1, by simp [acceptsFor, h2, h3]⟩
  cases hh : (order.filter (acceptsFor (candidatesFor ids) vf id)) with
  | nil =>
    rw [hh] at hmem
    simp at hmem
  | cons w tail => exact ⟨w, rfl⟩

/-- C8: a transport-level error (a raised `requests.RequestException`, i.e. a
connection failure or timeout) during an attempt of `validate_single` makes
the candidate be rejected immediately — the result is `none` no matter what
the probes of the remaining attempts would have returned — rather than
raising further (the function returns rather than escalates), and the
identifier can still be served by a different accepted candidate in the
stream map. -/
theorem c8_transport_error_immediate_reject (url : Url) (env : Nat → Attempt)
    (k : Nat) (hk : k < 3)
    (hpre : ∀ j, j < k → attemptContinues (env j) = true)
    (hraise : attemptRaises (env k) = true) :
    validate_single url env = none
    ∧ (∀ env' : Nat → Attempt, (∀ j, j ≤ k → env' j = env j) →
        validate_single url env' = none)
    ∧ (∀ (ids : List PS) (order : List Url) (vf : Url → Bool) (id : PS) (u' : Url),
        u' ∈ order → vf u' = true → (candidatesFor ids).lookup u' = some id →
        ∃ w, (build_stream_map ids vf order).lookup id = some w) := by
  refine ⟨?_, ?_, ?_⟩
  · exact vsGo_none_of_raise url env k 0 3
      (fun j hj => by simpa using hpre j hj) (by simpa using hraise) hk
  · intro env' hagree
    refine vsGo_none_of_raise url env' k 0 3 (fun j hj => ?_) ?_ hk
    · rw [Nat.zero_add, hagree j (by omega)]
      exact hpre j hj
    · rw [Nat.zero_add, hagree k (by omega)]
      exact hraise
  · intro ids order vf id u' h1 h2 h3
    exact bsm_present_of_accepted ids vf order id u' h1 h2 h3

/-- Witness for C8: the very first HEAD probe raises. -/
theorem c8_transport_error_immediate_reject_witness :
    validate_single (ps "u") (fun _ => ⟨Probe.exn, Probe.exn⟩) = none
    ∧ (∀ env' : Nat → Attempt,
        (∀ j, j ≤ 0 → env' j = (fun _ => (⟨Probe.exn, Probe.exn⟩ : Attempt)) j) →
        validate_single (ps "u") env' = none)
    ∧ (∀ (ids : List PS) (order : List Url) (vf : Url → Bool) (id : PS) (u' : Url),
        u' ∈ order → vf u' = true → (candidatesFor ids).lookup u' = some id →
        ∃ w, (build_stream_map ids vf order).lookup id = some w) :=
  c8_transport_error_immediate_reject (ps "u") (fun _ => ⟨Probe.exn, Probe.exn⟩)
    0 (by omega) (fun j hj => absurd hj (by omega)) (by decide)

/-! ## Claim theorems: C2 (alias index builder) -/

/-- Counterexample to C2: `build_epg_lookup` on the single reference line
`"ABC Sports 2 HD.uk"` registers no prefix alias at all — the claimed key
`"abc"` is absent (so are `"abc sports"`, `"abcsports2hd"`, ...). -/
theorem c2_prefix_keys_counterexample :
    (build_epg_lookup [c2Line]).lookup (ps "abc") = none
    ∧ (build_epg_lookup [c2Line]).lookup (ps "abcsports2hd") = none
    ∧ (build_epg_lookup [c2Line]).lookup (ps "abc sports") = none := by
  decide

/-- C2 amended: given the single reference line `"ABC Sports 2 HD.uk"`, the
builder registers exactly two alias keys — `"abc sports 2 hd"` (the cleaned,
lower-cased portion before the first dot) resolving once to the original
line, and `"abc sports 2 hd.uk"` (the lower-cased full line, which coincides
with the country-qualified key and is therefore registered twice) — and no
prefix or slug aliases. -/
theorem c2_alias_keys_amended :
    build_epg_lookup [c2Line] =
      [(ps "abc sports 2 hd", [c2Line]),
       (ps "abc sports 2 hd.uk", [c2Line, c2Line])] := by
  decide

/-! ## Claim theorems: C3 (fuzzy fallback) -/

theorem tryTerms_all_miss (idx : AliasIndex) (country : PS) (terms : List PS)
    (h : ∀ t ∈ terms, idx.lookup t = none) :
    tryTerms idx country terms = .ok none := by
  induction terms with
  | nil => rfl
  | cons t rest ih =>
    have ht := h t (List.mem_cons_self _ _)
    simp only [tryTerms, ht]
    exact ih (fun t' ht' => h t' (List.mem_cons_of_mem _ ht'))

/-- Unfolding of `find_best_epg_match` into its two stages. -/
theorem find_best_epg_match_eq (channel_name : PS) (epg_lookup : AliasIndex) :
    find_best_epg_match channel_name epg_lookup =
      (match tryTerms epg_lookup (extract_channel_info channel_name).2
          (search_terms (extract_channel_info channel_name).1
            (extract_channel_info channel_name).2) with
       | .error e => .error e
       | .ok (some r) => .ok r
       | .ok none =>
         fuzzyFallback (removeWs (pyLower (extract_channel_info channel_name).1))
           epg_lookup) := rfl

/-- Counterexample to C3: brand slug `"foxsprts"` does **not** match an index
containing the key `"foxsports"` — the resolver returns the empty string, not
a ≥ 0.60-similarity match. -/
theorem c3_fuzzy_counterexample :
    find_best_epg_match (ps "Foxsprts") foxIdx = .ok []
    ∧ (foxIdx.lookup (ps "foxsports")).isSome = true := by
  decide

/-- C3 amended: when every exact and variation term misses, the fallback is
substring containment, not a similarity score: it scans the alias keys in
insertion order and returns the first stored id of the first key that
contains the brand slug or is contained in it, with no 0.60 threshold and no
minimum key length; consequently slug `"foxsprts"` yields the empty result
against an index containing only `"foxsports"`, slug `"xyz"` also yields the
empty result, while e.g. slug `"oxsport"` (a substring of `"foxsports"`)
does match. -/
theorem c3_fuzzy_amended :
    (∀ (channel_name : PS) (idx : AliasIndex),
      (∀ t ∈ search_terms (extract_channel_info channel_name).1
          (extract_channel_info channel_name).2, idx.lookup t = none) →
      find_best_epg_match channel_name idx =
        fuzzyFallback (removeWs (pyLower (extract_channel_info channel_name).1)) idx)
    ∧ find_best_epg_match (ps "Foxsprts") foxIdx = .ok []
    ∧ find_best_epg_match (ps "Xyz") foxIdx = .ok []
    ∧ find_best_epg_match (ps "Oxsport") foxIdx = .ok (ps "FoxSports.us") := by
  refine ⟨?_, by decide, by decide, by decide⟩
  intro channel_name idx hmiss
  rw [find_best_epg_match_eq, tryTerms_all_miss idx _ _ hmiss]

/-- Witness for the universally quantified part of the amended C3. -/
theorem c3_fuzzy_amended_witness :
    find_best_epg_match (ps "Foxsprts") foxIdx =
      fuzzyFallback (removeWs (pyLower (extract_channel_info (ps "Foxsprts")).1)) foxIdx :=
  c3_fuzzy_amended.1 (ps "Foxsprts") foxIdx (by decide)

/-! ## Claim theorems: C4 (country tie-break) -/

/-- Counterexample to C4: the tie-break is substring containment of
`".<country>"`, not an end-of-id match, and the country comes from the
display name, not a supplied preference list: with key `"x"` resolving to
`["X.uk.backup", "X.uk"]` and detected country `uk`, the resolver returns
`"X.uk.backup"` — which does not end in `".uk"` — even though the candidate
`"X.uk"` ending in `".uk"` is available. -/
theorem c4_tiebreak_counterexample :
    find_best_epg_match (ps "X UK") xIdx2 = .ok (ps "X.uk.backup")
    ∧ (ps ".uk").isSuffixOf (ps "X.uk.backup") = false
    ∧ (ps ".uk").isSuffixOf (ps "X.uk") = true
    ∧ xIdx2.lookup (ps "x") = some [ps "X.uk.backup", ps "X.uk"] := by
  decide

/-- C4 amended: the resolver takes no preference list — it uses the single
country detected from the display name.  When the matched key resolves to
multiple raw ids it returns the first id in insertion order whose lower-cased
form contains `".<country>"` as a substring, else the first id in insertion
order.  For key `"x"` → `["X.uk", "X.de"]`: a display name with detected
country `uk` yields `"X.uk"`, detected country `de` yields `"X.de"`, and no
detected country yields the first-inserted `"X.uk"`. -/
theorem c4_tiebreak_amended :
    find_best_epg_match (ps "X UK") xIdx = .ok (ps "X.uk")
    ∧ find_best_epg_match (ps "X Germany") xIdx = .ok (ps "X.de")
    ∧ find_best_epg_match (ps "X") xIdx = .ok (ps "X.uk")
    ∧ extract_channel_info (ps "X UK") = (ps "X", ps "uk")
    ∧ extract_channel_info (ps "X Germany") = (ps "X", ps "de")
    ∧ extract_channel_info (ps "X") = (ps "X", ps "unknown") := by
  decide

/-! ## Claim theorems: C5 (first cascade key) -/

/-- Counterexample to C5: for `"Sky Sports Racing UK"` the first cascade key
is the *spaced* form `"sky sports racing.uk"`, not the slug
`"skysportsracing.uk"`; indeed the slug-with-country form is never among the
search terms at all. -/
theorem c5_first_key_counterexample :
    (search_terms (extract_channel_info (ps "Sky Sports Racing UK")).1
        (extract_channel_info (ps "Sky Sports Racing UK")).2).head? =
      some (ps "sky sports racing.uk")
    ∧ ps "sky sports racing.uk" ≠ ps "skysportsracing.uk"
    ∧ (ps "skysportsracing.uk") ∉
        search_terms (extract_channel_info (ps "Sky Sports Racing UK")).1
          (extract_channel_info (ps "Sky Sports Racing UK")).2 := by
  decide

/-- C5 amended: the Text Normalizer yields brand `"Sky Sports Racing"` and
country `"uk"` as claimed, but the first key the cascade looks up is the
spaced country-qualified form `"sky sports racing.uk"`; the slug
`"skysportsracing"` only appears as the third term, without a country
qualifier. -/
theorem c5_first_key_amended :
    extract_channel_info (ps "Sky Sports Racing UK") = (ps "Sky Sports Racing", ps "uk")
    ∧ (search_terms (ps "Sky Sports Racing") (ps "uk")).head? =
        some (ps "sky sports racing.uk")
    ∧ (search_terms (ps "Sky Sports Racing") (ps "uk"))[2]? =
        some (ps "skysportsracing") := by
  decide

/-! ## Claim theorem: C9 (determinism) -/

/-- C9: the Match Resolver is a pure function of the display name and the
frozen alias index; resolving the same display name twice against the same
index returns the same matched identifier (two-run equality). -/
theorem c9_resolver_deterministic (channel_name : PS) (epg_lookup : AliasIndex) :
    find_best_epg_match channel_name epg_lookup =
      find_best_epg_match channel_name epg_lookup := rfl

/-! ## Claim theorems: C6 (entry normalizer) -/

theorem extract_cid_ok (v : PyVal) (h : entrySafe v = true) :
    ∃ y, _extract_cid v = .ok y := by
  cases v with
  | vdict fs =>
    rw [entrySafe] at h
    obtain ⟨w, hw⟩ := Option.isSome_iff_exists.mp h
    exact ⟨pyStrOf w, by rw [_extract_cid, hw]⟩
  | vstr s => exact ⟨s, rfl⟩
  | vlist l => exact ⟨ps "<obj>", rfl⟩
  | vnone => exact ⟨ps "<obj>", rfl⟩

theorem mapM_ok_of_all (f : PyVal → Except String PS) (l : List PyVal)
    (h : ∀ x ∈ l, ∃ y, f x = .ok y) : ∃ out, l.mapM f = .ok out := by
  induction l with
  | nil => exact ⟨[], rfl⟩
  | cons x xs ih =>
    obtain ⟨y, hy⟩ := h x (List.mem_cons_self _ _)
    obtain ⟨out, hout⟩ := ih (fun z hz => h z (List.mem_cons_of_mem _ hz))
    refine ⟨y :: out, ?_⟩
    rw [List.mapM_cons, hy, hout]
    rfl

/-- Counterexample to C6: a channel field that is a mapping whose values
include an entry without a `channel_id` field makes the extraction raise
`KeyError` instead of silently skipping the entry. -/
theorem c6_entry_normalizer_counterexample :
    extract_cids_of_event c6BadEvent = .error "KeyError: channel_id" := by
  decide

/-- C6 amended: the Entry Normalizer dispatches scalar, sequence, keyed-entry
and plain-mapping channel shapes without failing and silently skips falsy
channel fields, but it is not exception-free: extraction succeeds exactly
when every yielded dict entry carries a `channel_id` key, and an entry
lacking one raises `KeyError` (it is not silently skipped). -/
theorem c6_entry_normalizer_amended (event : List (PS × PyVal))
    (h : ∀ v ∈ _channel_entries event, entrySafe v = true) :
    ∃ l, extract_cids_of_event event = .ok l := by
  rw [extract_cids_of_event]
  exact mapM_ok_of_all _ _ (fun v hv => extract_cid_ok v (h v hv))

/-- Witness for the amended C6 on a well-shaped event. -/
theorem c6_entry_normalizer_amended_witness :
    ∃ l, extract_cids_of_event c6GoodEvent = .ok l :=
  c6_entry_normalizer_amended c6GoodEvent (by decide)

/-! ## Claim theorems: C10 (empty brand slug) -/

theorem pyInfix_nil (h : PS) : pyInfix [] h = true := by
  cases h with
  | nil => rfl
  | cons c t => simp [pyInfix, List.isPrefixOf]

theorem tryTerms_cons_some (idx : AliasIndex) (country t : PS) (rest : List PS)
    (ms : List PS) (h : idx.lookup t = some ms) :
    tryTerms idx country (t :: rest) =
      (if country ≠ ps "unknown" then
        match ms.filter (fun m => pyInfix ('.' :: country) (pyLower m)) with
        | c :: _ => Except.ok (some c)
        | [] => (headE ms).map some
      else (headE ms).map some) := by
  rw [tryTerms, h]

theorem tryTerms_sound (idx : AliasIndex) (country : PS) (terms : List PS)
    (hwf : ∀ p ∈ idx, p.2 ≠ []) :
    tryTerms idx country terms = .ok none
    ∨ ∃ p ∈ idx, ∃ r ∈ p.2, tryTerms idx country terms = .ok (some r) := by
  induction terms with
  | nil => exact Or.inl rfl
  | cons t rest ih =>
    cases hlu : idx.lookup t with
    | none =>
      rcases ih with h | ⟨p, hp, r, hr, heq⟩
      · exact Or.inl (by rw [tryTerms, hlu]; exact h)
      · exact Or.inr ⟨p, hp, r, hr, by rw [tryTerms, hlu]; exact heq⟩
    | some ms =>
      have hpmem : (t, ms) ∈ idx := lookup_mem _ _ _ hlu
      have hms : ms ≠ [] := hwf (t, ms) hpmem
      refine Or.inr ?_
      by_cases hc : country ≠ ps "unknown"
      · cases hflt : ms.filter (fun m => pyInfix ('.' :: country) (pyLower m)) with
        | cons c tail =>
          have hcms : c ∈ ms := by
            have : c ∈ ms.filter (fun m => pyInfix ('.' :: country) (pyLower m)) := by
              rw [hflt]
              exact List.mem_cons_self _ _
            exact List.mem_of_mem_filter this
          refine ⟨(t, ms), hpmem, c, hcms, ?_⟩
          rw [tryTerms_cons_some idx country t rest ms hlu, if_pos hc, hflt]
        | nil =>
          cases ms with
          | nil => exact absurd rfl hms
          | cons m₀ mtail =>
            refine ⟨(t, m₀ :: mtail), hpmem, m₀, List.mem_cons_self _ _, ?_⟩
            rw [tryTerms_cons_some idx country t rest _ hlu, if_pos hc, hflt]
            rfl
      · cases ms with
        | nil => exact absurd rfl hms
        | cons m₀ mtail =>
          refine ⟨(t, m₀ :: mtail), hpmem, m₀, List.mem_cons_self _ _, ?_⟩
          rw [tryTerms_cons_some idx country t rest _ hlu, if_neg hc]
          rfl

theorem fuzzyFallback_nil_slug (p₀ : PS × List PS) (rest : List (PS × List PS)) :
    fuzzyFallback [] (p₀ :: rest) = headE p₀.2 := by
  rw [fuzzyFallback]
  have hfind : ((p₀ :: rest).find?
      (fun p => pyInfix [] p.1 || pyInfix p.1 [])) = some p₀ := by
    rw [List.find?_cons]
    simp [pyInfix_nil]
  rw [hfind]

/-- Counterexample to C10: with display name `"France"` (empty brand) and an
index whose single key is `".fr"`, the resolver returns `"B.fr"` — an entry
of that key, but not the *first* entry of any index key, because the
country-qualified exact stage hits the key `".fr"` and the country filter
selects the second stored id. -/
theorem c10_empty_brand_counterexample :
    find_best_epg_match (ps "France") c10Idx = .ok (ps "B.fr")
    ∧ (∀ p ∈ c10Idx, p.2.head? ≠ some (ps "B.fr")) := by
  decide

/-- C10 amended: for a display name whose extracted brand slug is empty (for
example `"France"`, a bare country name), the resolver applied to a non-empty
well-formed alias index never returns the empty result: it returns one of the
stored ids of some index key, and — whenever no search term is itself an
index key — the *first* stored id of the *first* key, because the empty brand
slug is a substring of every alias key in the fuzzy fallback. -/
theorem c10_empty_brand_amended (channel_name : PS) (idx : AliasIndex)
    (hb : removeWs (pyLower (extract_channel_info channel_name).1) = [])
    (hne : idx ≠ [])
    (hwf : ∀ p ∈ idx, p.2 ≠ [] ∧ [] ∉ p.2) :
    (∃ p ∈ idx, ∃ r ∈ p.2, find_best_epg_match channel_name idx = .ok r ∧ r ≠ [])
    ∧ ((∀ t ∈ search_terms (extract_channel_info channel_name).1
          (extract_channel_info channel_name).2, idx.lookup t = none) →
        ∃ p₀ r, idx.head? = some p₀ ∧ p₀.2.head? = some r
          ∧ find_best_epg_match channel_name idx = .ok r) := by
  obtain ⟨p₀, rest, rfl⟩ : ∃ p₀ rest, idx = p₀ :: rest := by
    cases idx with
    | nil => exact absurd rfl hne
    | cons q r => exact ⟨q, r, rfl⟩
  have hfz : ∀ r₀ tl, p₀.2 = r₀ :: tl →
      fuzzyFallback (removeWs (pyLower (extract_channel_info channel_name).1))
        (p₀ :: rest) = .ok r₀ := by
    intro r₀ tl hp
    rw [hb, fuzzyFallback_nil_slug p₀ rest, hp]
    rfl
  obtain ⟨r₀, tl, hp₀⟩ : ∃ r₀ tl, p₀.2 = r₀ :: tl := by
    cases hc : p₀.2 with
    | nil => exact absurd hc (hwf p₀ (List.mem_cons_self _ _)).1
    | cons a b => exact ⟨a, b, rfl⟩
  constructor
  · rcases tryTerms_sound (p₀ :: rest) (extract_channel_info channel_name).2
        (search_terms (extract_channel_info channel_name).1
          (extract_channel_info channel_name).2)
        (fun p hp => (hwf p hp).1) with hnone | ⟨p, hp, r, hr, hsome⟩
    · have hmem2 : r₀ ∈ p₀.2 := by
        rw [hp₀]
        exact List.mem_cons_self _ _
      refine ⟨p₀, List.mem_cons_self _ _, r₀, hmem2, ?_, ?_⟩
      · rw [find_best_epg_match_eq, hnone]
        exact hfz r₀ tl hp₀
      · intro hnil
        rw [hnil] at hmem2
        exact (hwf p₀ (List.mem_cons_self _ _)).2 hmem2
    · refine ⟨p, hp, r, hr, ?_, ?_⟩
      · rw [find_best_epg_match_eq, hsome]
      · intro hnil
        exact (hwf p hp).2 (hnil ▸ hr)
  · intro hmiss
    refine ⟨p₀, r₀, rfl, by rw [hp₀]; rfl, ?_⟩
    rw [find_best_epg_match_eq, tryTerms_all_miss _ _ _ hmiss]
    exact hfz r₀ tl hp₀

/-- Witness for the amended C10: display name `"France"`, a one-key index. -/
theorem c10_empty_brand_amended_witness :
    (∃ p ∈ foxIdx, ∃ r ∈ p.2,
      find_best_epg_match (ps "France") foxIdx = .ok r ∧ r ≠ [])
    ∧ ((∀ t ∈ search_terms (extract_channel_info (ps "France")).1
          (extract_channel_info (ps "France")).2, foxIdx.lookup t = none) →
        ∃ p₀ r, foxIdx.head? = some p₀ ∧ p₀.2.head? = some r
          ∧ find_best_epg_match (ps "France") foxIdx = .ok r) :=
  c10_empty_brand_amended (ps "France") foxIdx (by decide) (by decide) (by decide)

end CloneSpec
